import Mathlib

/-!
Verification of the `ring_buffer_no_std` crate (src/src/lib.rs): a fixed-capacity
circular FIFO buffer with cursors `head` (next write slot) and `tail` (next read
slot) and a live-element count `len`.

The Rust code is shallowly embedded: the backing array `[T; S]` becomes a
`List α` of length `S`, `usize` indices become `Nat` (overflow is irrelevant:
all quantities stay below `S + 1`), and methods taking `&mut self` become
functions returning the updated state paired with the method's return value.
Rust's `Option`/`Result` become Lean's `Option`/`Except`.  Array indexing,
which panics in Rust when out of bounds, is modelled with the total `List.set`
and `List.getD`; the panic conditions themselves are captured by the explicit
`*_safe` predicates further below.
-/

set_option autoImplicit false
set_option linter.unusedSectionVars false

/-- Error type of the buffer (`RingBufferError` in src/src/lib.rs). -/
inductive RingBufferError where
  | Full
  | BeyondRange
  | BufferIncomplete
deriving DecidableEq

deriving instance DecidableEq for Except

/-- The buffer state (`RingBuffer<T, S>` in src/src/lib.rs): backing array,
write cursor `head`, read cursor `tail`, and live count `len`. -/
structure RingBuffer (α : Type) (S : Nat) where
  buffer : List α
  head : Nat
  tail : Nat
  len : Nat
deriving DecidableEq

namespace RingBuffer

variable {α : Type} {S : Nat} [Inhabited α]

/-- `RingBuffer::new()`: all slots default-initialised, `head = tail = len = 0`. -/
def new : RingBuffer α S :=
  { buffer := List.replicate S default, head := 0, tail := 0, len := 0 }

/-- `RingBuffer::push(item)`: rejects with `Full` when `len == S`; otherwise
stores `item` at `head`, advances `head` modulo `S`, increments `len`. -/
def push (rb : RingBuffer α S) (item : α) :
    RingBuffer α S × Except RingBufferError Unit :=
  if rb.len = S then
    (rb, Except.error RingBufferError.Full)
  else
    ({ buffer := rb.buffer.set rb.head item,
       head := (rb.head + 1) % S,
       tail := rb.tail,
       len := rb.len + 1 }, Except.ok ())

/-- `RingBuffer::pop()`: `None` when empty; otherwise returns the element at
`tail`, advances `tail` modulo `S`, decrements `len`. -/
def pop (rb : RingBuffer α S) : RingBuffer α S × Option α :=
  if rb.len = 0 then
    (rb, none)
  else
    ({ rb with tail := (rb.tail + 1) % S, len := rb.len - 1 },
     some (rb.buffer.getD rb.tail default))

/-- `RingBuffer::clear()`: resets the cursors and the count; storage untouched. -/
def clear (rb : RingBuffer α S) : RingBuffer α S :=
  { rb with head := 0, tail := 0, len := 0 }

/-- `RingBuffer::capacity()`. -/
def capacity (_ : RingBuffer α S) : Nat := S

/-- `RingBuffer::remaining_capacity()` = `S - len`. -/
def remaining_capacity (rb : RingBuffer α S) : Nat := S - rb.len

/-- `RingBuffer::is_empty()`. -/
def is_empty (rb : RingBuffer α S) : Bool := rb.len == 0

/-- `RingBuffer::is_full()`. -/
def is_full (rb : RingBuffer α S) : Bool := rb.len == S

/-- `RingBuffer::pop_continuous(count)`: rejects with `BeyondRange` when
`count > len`; otherwise advances `tail` by `count` modulo `S`, decrements
`len` by `count`, and returns `remaining_capacity()` of the updated state. -/
def pop_continuous (rb : RingBuffer α S) (count : Nat) :
    RingBuffer α S × Except RingBufferError Nat :=
  if count > rb.len then
    (rb, Except.error RingBufferError.BeyondRange)
  else
    let rb' : RingBuffer α S :=
      { rb with tail := (rb.tail + count) % S, len := rb.len - count }
    (rb', Except.ok rb'.remaining_capacity)

/-- `RingBuffer::write(data)`: pushes each element in order, aborting with the
first push error; state mutated so far is kept (non-transactional). -/
def write : RingBuffer α S → List α → RingBuffer α S × Except RingBufferError Unit
  | rb, [] => (rb, Except.ok ())
  | rb, item :: rest =>
    match rb.push item with
    | (rb', Except.ok _) => write rb' rest
    | (rb', Except.error e) => (rb', Except.error e)

/-- `RingBuffer::read(buffer)`: repeatedly pops into successive slots of the
output buffer, stopping at the first empty pop; returns the updated state, the
updated output buffer, and the number of slots filled. -/
def read : RingBuffer α S → List α → RingBuffer α S × List α × Nat
  | rb, [] => (rb, [], 0)
  | rb, o :: os =>
    match rb.pop with
    | (rb', some item) =>
      let r := read rb' os
      (r.1, item :: r.2.1, r.2.2 + 1)
    | (rb', none) => (rb', o :: os, 0)

/-- `RingBuffer::read_slice(len)`: non-mutating (`&self` in Rust).  Rejects
with `BeyondRange` when more than `len` elements are requested; returns the
contiguous slice `buffer[tail..tail+n]` when the live data up to `n` does not
wrap; rejects with `BufferIncomplete` otherwise. -/
def read_slice (rb : RingBuffer α S) (n : Nat) :
    Except RingBufferError (List α) :=
  if n > rb.len then
    Except.error RingBufferError.BeyondRange
  else if rb.tail < rb.head then
    Except.ok ((rb.buffer.drop rb.tail).take n)
  else if rb.tail + n ≤ S then
    Except.ok ((rb.buffer.drop rb.tail).take n)
  else
    Except.error RingBufferError.BufferIncomplete

/-- The abstract content of the buffer: the `len` live elements in FIFO order,
starting at `tail` and advancing circularly. -/
def toList (rb : RingBuffer α S) : List α :=
  (List.range rb.len).map (fun i => rb.buffer.getD ((rb.tail + i) % S) default)

/-- The state invariant: the backing list has physical length `S`, the live
count never exceeds `S`, both cursors are reduced modulo `S`, and `head` marks
the end of the live region that starts at `tail`. -/
def Inv (rb : RingBuffer α S) : Prop :=
  rb.buffer.length = S ∧ rb.len ≤ S ∧ rb.head < S ∧ rb.tail < S ∧
    rb.head = (rb.tail + rb.len) % S

instance (rb : RingBuffer α S) : Decidable (Inv rb) :=
  decidable_of_iff
    (rb.buffer.length = S ∧ rb.len ≤ S ∧ rb.head < S ∧ rb.tail < S ∧
      rb.head = (rb.tail + rb.len) % S) Iff.rfl

/-- One public mutating call, used to describe reachable states. -/
inductive Op (α : Type) where
  | push (item : α)
  | pop
  | write (data : List α)
  | read (out : List α)
  | clear
  | pop_continuous (count : Nat)
  | read_slice (n : Nat)

/-- The state after one public call (`read_slice` takes `&self` and cannot
mutate). -/
def apply (rb : RingBuffer α S) : Op α → RingBuffer α S
  | Op.push item => (rb.push item).1
  | Op.pop => rb.pop.1
  | Op.write data => (rb.write data).1
  | Op.read out => (rb.read out).1
  | Op.clear => rb.clear
  | Op.pop_continuous count => (rb.pop_continuous count).1
  | Op.read_slice _ => rb

/-- Run a sequence of public calls. -/
def run (rb : RingBuffer α S) (ops : List (Op α)) : RingBuffer α S :=
  ops.foldl apply rb

/-- States reachable from `new()` by a finite sequence of public calls. -/
def Reachable (rb : RingBuffer α S) : Prop :=
  ∃ ops : List (Op α), run new ops = rb

/-- Pop `n` times, collecting the successfully popped values in order. -/
def popN : RingBuffer α S → Nat → List α × RingBuffer α S
  | rb, 0 => ([], rb)
  | rb, n + 1 =>
    match rb.pop with
    | (rb', some item) =>
      let r := popN rb' n
      (item :: r.1, r.2)
    | (rb', none) => ([], rb')

/-! ### Generic helper lemmas -/

theorem getD_set_ne {α : Type} (l : List α) (i j : Nat) (x d : α) (h : i ≠ j) :
    (l.set i x).getD j d = l.getD j d := by
  induction l generalizing i j with
  | nil => simp [List.set]
  | cons a l ih =>
    cases i with
    | zero =>
      cases j with
      | zero => exact absurd rfl h
      | succ j => simp [List.set]
    | succ i =>
      cases j with
      | zero => simp [List.set]
      | succ j =>
        simp only [List.set, List.getD_cons_succ]
        exact ih i j (fun hij => h (congrArg Nat.succ hij))

theorem getD_set_eq {α : Type} (l : List α) (i : Nat) (x d : α)
    (h : i < l.length) : (l.set i x).getD i d = x := by
  induction l generalizing i with
  | nil => simp at h
  | cons a l ih =>
    cases i with
    | zero => simp [List.set]
    | succ i =>
      simp only [List.set, List.getD_cons_succ]
      exact ih i (by simpa using h)

theorem add_mod_ne (x d n : Nat) (h1 : 0 < d) (h2 : d < n) :
    (x + d) % n ≠ x % n := by
  intro h
  have hm : Nat.ModEq n x (x + d) := h.symm
  have hd : n ∣ (x + d - x) := (Nat.modEq_iff_dvd' (Nat.le_add_right x d)).mp hm
  have hd' : n ∣ d := by simpa using hd
  exact absurd (Nat.le_of_dvd h1 hd') (Nat.not_le.mpr h2)

/-- A contiguous physical slice, written pointwise. -/
theorem drop_take_eq_map_range {α : Type} [Inhabited α] (l : List α) (t n : Nat)
    (h : t + n ≤ l.length) :
    (l.drop t).take n = (List.range n).map (fun i => l.getD (t + i) default) := by
  apply List.ext_getElem
  · simp
    omega
  · intro i h1 h2
    have hi : i < n := by simpa using h2
    have hti : t + i < l.length := by omega
    simp [List.getElem_take, List.getElem_drop, List.getD_eq_getElem?_getD,
      List.getElem?_eq_getElem hti]

/-! ### Invariant preservation -/

theorem inv_new (hS : 0 < S) : Inv (new : RingBuffer α S) := by
  refine ⟨by simp [new], by simp [new], ?_, ?_, ?_⟩ <;> simp [new, hS]

theorem inv_push (rb : RingBuffer α S) (x : α) (h : Inv rb) :
    Inv (rb.push x).1 := by
  obtain ⟨hb, hl, hh, ht, he⟩ := h
  by_cases hfull : rb.len = S
  · simp only [push, if_pos hfull]
    exact ⟨hb, hl, hh, ht, he⟩
  · have hS : 0 < S := by omega
    simp only [push, if_neg hfull]
    refine ⟨?_, ?_, ?_, ?_, ?_⟩
    · show (rb.buffer.set rb.head x).length = S
      simpa using hb
    · show rb.len + 1 ≤ S
      omega
    · show (rb.head + 1) % S < S
      exact Nat.mod_lt _ hS
    · show rb.tail < S
      exact ht
    · show (rb.head + 1) % S = (rb.tail + (rb.len + 1)) % S
      rw [he, Nat.mod_add_mod, Nat.add_assoc]

theorem inv_pop (rb : RingBuffer α S) (h : Inv rb) : Inv rb.pop.1 := by
  obtain ⟨hb, hl, hh, ht, he⟩ := h
  by_cases hempty : rb.len = 0
  · simp only [pop, if_pos hempty]
    exact ⟨hb, hl, hh, ht, he⟩
  · have hS : 0 < S := by omega
    simp only [pop, if_neg hempty]
    refine ⟨?_, ?_, ?_, ?_, ?_⟩
    · show rb.buffer.length = S
      exact hb
    · show rb.len - 1 ≤ S
      omega
    · show rb.head < S
      exact hh
    · show (rb.tail + 1) % S < S
      exact Nat.mod_lt _ hS
    · show rb.head = ((rb.tail + 1) % S + (rb.len - 1)) % S
      rw [Nat.mod_add_mod, he]
      congr 1
      omega

theorem inv_clear (rb : RingBuffer α S) (h : Inv rb) : Inv rb.clear := by
  obtain ⟨hb, hl, hh, ht, he⟩ := h
  have hS : 0 < S := by omega
  refine ⟨?_, ?_, ?_, ?_, ?_⟩
  · show rb.buffer.length = S
    exact hb
  · show (0 : Nat) ≤ S
    exact Nat.zero_le S
  · exact hS
  · exact hS
  · show (0 : Nat) = (0 + 0) % S
    simp

theorem inv_pop_continuous (rb : RingBuffer α S) (count : Nat) (h : Inv rb) :
    Inv (rb.pop_continuous count).1 := by
  obtain ⟨hb, hl, hh, ht, he⟩ := h
  by_cases hc : count > rb.len
  · simp only [pop_continuous, if_pos hc]
    exact ⟨hb, hl, hh, ht, he⟩
  · have hS : 0 < S := by omega
    simp only [pop_continuous, if_neg hc]
    refine ⟨?_, ?_, ?_, ?_, ?_⟩
    · show rb.buffer.length = S
      exact hb
    · show rb.len - count ≤ S
      omega
    · show rb.head < S
      exact hh
    · show (rb.tail + count) % S < S
      exact Nat.mod_lt _ hS
    · show rb.head = ((rb.tail + count) % S + (rb.len - count)) % S
      rw [Nat.mod_add_mod, he]
      congr 1
      omega

theorem inv_write (rb : RingBuffer α S) (data : List α) (h : Inv rb) :
    Inv (rb.write data).1 := by
  induction data generalizing rb with
  | nil => simpa [write] using h
  | cons x xs ih =>
    unfold write
    rcases hp : rb.push x with ⟨rb', r⟩
    have hrb' : Inv rb' := by
      have := inv_push rb x h
      rwa [hp] at this
    cases r with
    | ok u => cases u; exact ih rb' hrb'
    | error e => exact hrb'

theorem inv_read (rb : RingBuffer α S) (out : List α) (h : Inv rb) :
    Inv (rb.read out).1 := by
  induction out generalizing rb with
  | nil => simpa [read] using h
  | cons o os ih =>
    unfold read
    rcases hp : rb.pop with ⟨rb', r⟩
    have hrb' : Inv rb' := by
      have := inv_pop rb h
      rwa [hp] at this
    cases r with
    | some item => exact ih rb' hrb'
    | none => exact hrb'

theorem inv_popN (rb : RingBuffer α S) (n : Nat) (h : Inv rb) :
    Inv (rb.popN n).2 := by
  induction n generalizing rb with
  | zero => simpa [popN] using h
  | succ n ih =>
    unfold popN
    rcases hp : rb.pop with ⟨rb', r⟩
    have hrb' : Inv rb' := by
      have := inv_pop rb h
      rwa [hp] at this
    cases r with
    | some item => exact ih rb' hrb'
    | none => exact hrb'

theorem inv_apply (rb : RingBuffer α S) (op : Op α) (h : Inv rb) :
    Inv (rb.apply op) := by
  cases op with
  | push item => exact inv_push rb item h
  | pop => exact inv_pop rb h
  | write data => exact inv_write rb data h
  | read out => exact inv_read rb out h
  | clear => exact inv_clear rb h
  | pop_continuous count => exact inv_pop_continuous rb count h
  | read_slice n => exact h

theorem inv_run (rb : RingBuffer α S) (ops : List (Op α)) (h : Inv rb) :
    Inv (rb.run ops) := by
  induction ops generalizing rb with
  | nil => simpa [run] using h
  | cons op ops ih =>
    simpa [run, List.foldl_cons] using ih (rb.apply op) (inv_apply rb op h)

theorem inv_reachable (hS : 0 < S) (rb : RingBuffer α S) (h : Reachable rb) :
    Inv rb := by
  obtain ⟨ops, hops⟩ := h
  rw [← hops]
  exact inv_run new ops (inv_new hS)

/-! ### Small-step characterisations of the single-element operations -/

theorem push_full (rb : RingBuffer α S) (x : α) (h : rb.len = S) :
    rb.push x = (rb, Except.error RingBufferError.Full) := by
  simp [push, h]

theorem push_state (rb : RingBuffer α S) (x : α) (h : rb.len < S) :
    (rb.push x).2 = Except.ok () ∧
      (rb.push x).1.buffer = rb.buffer.set rb.head x ∧
      (rb.push x).1.head = (rb.head + 1) % S ∧
      (rb.push x).1.tail = rb.tail ∧
      (rb.push x).1.len = rb.len + 1 := by
  have hne : ¬ rb.len = S := Nat.ne_of_lt h
  refine ⟨?_, ?_, ?_, ?_, ?_⟩ <;> simp [push, hne]

theorem pop_empty (rb : RingBuffer α S) (h : rb.len = 0) :
    rb.pop = (rb, none) := by
  simp [pop, h]

theorem pop_state (rb : RingBuffer α S) (h : 0 < rb.len) :
    rb.pop.2 = some (rb.buffer.getD rb.tail default) ∧
      rb.pop.1.buffer = rb.buffer ∧
      rb.pop.1.head = rb.head ∧
      rb.pop.1.tail = (rb.tail + 1) % S ∧
      rb.pop.1.len = rb.len - 1 := by
  have hne : ¬ rb.len = 0 := by omega
  refine ⟨?_, ?_, ?_, ?_, ?_⟩ <;> simp [pop, hne]

theorem pop_continuous_beyond (rb : RingBuffer α S) (count : Nat)
    (h : count > rb.len) :
    rb.pop_continuous count = (rb, Except.error RingBufferError.BeyondRange) := by
  simp [pop_continuous, h]

theorem pop_continuous_state (rb : RingBuffer α S) (count : Nat)
    (h : count ≤ rb.len) :
    (rb.pop_continuous count).1.buffer = rb.buffer ∧
      (rb.pop_continuous count).1.head = rb.head ∧
      (rb.pop_continuous count).1.tail = (rb.tail + count) % S ∧
      (rb.pop_continuous count).1.len = rb.len - count ∧
      (rb.pop_continuous count).2 = Except.ok (S - (rb.len - count)) := by
  have hne : ¬ count > rb.len := by omega
  refine ⟨?_, ?_, ?_, ?_, ?_⟩ <;>
    simp [pop_continuous, hne, remaining_capacity]

/-- With a non-wrapping live region (`tail < head`), the live region fits
strictly below the physical end of the array. -/
theorem live_no_wrap (rb : RingBuffer α S) (h : Inv rb)
    (hth : rb.tail < rb.head) : rb.tail + rb.len < S := by
  obtain ⟨hb, hl, hh, ht, he⟩ := h
  by_contra hcon
  have hge : S ≤ rb.tail + rb.len := by omega
  have hmod : (rb.tail + rb.len) % S = rb.tail + rb.len - S := by
    rw [Nat.mod_eq_sub_mod hge, Nat.mod_eq_of_lt (by omega)]
  omega

/-! ### The abstract FIFO content under each operation -/

theorem toList_length (rb : RingBuffer α S) : (toList rb).length = rb.len := by
  simp [toList]

theorem toList_new : toList (new : RingBuffer α S) = [] := by
  simp [toList, new]

theorem toList_push (rb : RingBuffer α S) (x : α) (h : Inv rb)
    (hlen : rb.len < S) :
    (rb.push x).2 = Except.ok () ∧
      toList (rb.push x).1 = toList rb ++ [x] := by
  obtain ⟨hb, hl, hh, ht, he⟩ := h
  have hfull : ¬ rb.len = S := Nat.ne_of_lt hlen
  refine ⟨by simp [push, hfull], ?_⟩
  have h1 : (rb.push x).1 =
      { buffer := rb.buffer.set rb.head x,
        head := (rb.head + 1) % S,
        tail := rb.tail,
        len := rb.len + 1 } := by
    simp [push, hfull]
  rw [h1]
  simp only [toList]
  rw [List.range_succ, List.map_append]
  congr 1
  · apply List.map_congr_left
    intro i hi
    have hilt : i < rb.len := List.mem_range.mp hi
    apply getD_set_ne
    intro hEq
    rw [he] at hEq
    have hEq' : (rb.tail + i + (rb.len - i)) % S = (rb.tail + i) % S := by
      rw [show rb.tail + i + (rb.len - i) = rb.tail + rb.len by omega]
      exact hEq
    exact add_mod_ne (rb.tail + i) (rb.len - i) S (by omega) (by omega) hEq'
  · simp only [List.map_cons, List.map_nil]
    congr 1
    rw [← he]
    exact getD_set_eq rb.buffer rb.head x default (by omega)

theorem toList_pop (rb : RingBuffer α S) (h : Inv rb) (hlen : 0 < rb.len) :
    rb.pop.2 = some (rb.buffer.getD rb.tail default) ∧
      toList rb = rb.buffer.getD rb.tail default :: toList rb.pop.1 := by
  obtain ⟨hb, hl, hh, ht, he⟩ := h
  have hne : ¬ rb.len = 0 := by omega
  refine ⟨by simp [pop, hne], ?_⟩
  have h1 : rb.pop.1 = { rb with tail := (rb.tail + 1) % S, len := rb.len - 1 } := by
    simp [pop, hne]
  rw [h1]
  simp only [toList]
  have hrange : List.range rb.len = 0 :: (List.range (rb.len - 1)).map Nat.succ := by
    rw [show rb.len = (rb.len - 1) + 1 by omega]
    exact List.range_succ_eq_map (rb.len - 1)
  rw [hrange]
  simp only [List.map_cons, List.map_map]
  congr 1
  · show rb.buffer.getD ((rb.tail + 0) % S) default = rb.buffer.getD rb.tail default
    rw [Nat.add_zero, Nat.mod_eq_of_lt ht]
  · apply List.map_congr_left
    intro i hi
    show rb.buffer.getD ((rb.tail + Nat.succ i) % S) default
        = rb.buffer.getD (((rb.tail + 1) % S + i) % S) default
    rw [Nat.mod_add_mod]
    congr 2
    omega

theorem popN_succ (rb : RingBuffer α S) (n : Nat) (hlen : 0 < rb.len) :
    rb.popN (n + 1) =
      (rb.buffer.getD rb.tail default :: (rb.pop.1.popN n).1,
        (rb.pop.1.popN n).2) := by
  have hne : ¬ rb.len = 0 := by omega
  simp [popN, pop, hne]

theorem popN_spec (n : Nat) : ∀ rb : RingBuffer α S, Inv rb → n ≤ rb.len →
    (rb.popN n).1 = (toList rb).take n ∧
      toList (rb.popN n).2 = (toList rb).drop n ∧
      (rb.popN n).2.len = rb.len - n ∧
      Inv (rb.popN n).2 := by
  induction n with
  | zero =>
    intro rb h _
    exact ⟨by simp [popN], by simp [popN], by simp [popN],
      by simpa [popN] using h⟩
  | succ n ih =>
    intro rb h hn
    have hlen : 0 < rb.len := by omega
    obtain ⟨hpop2, hcons⟩ := toList_pop rb h hlen
    obtain ⟨_, _, _, _, hlen1⟩ := pop_state rb hlen
    have hinv1 : Inv rb.pop.1 := inv_pop rb h
    have hn1 : n ≤ rb.pop.1.len := by omega
    obtain ⟨h1, h2, h3, h4⟩ := ih rb.pop.1 hinv1 hn1
    rw [popN_succ rb n hlen]
    refine ⟨?_, ?_, ?_, h4⟩
    · show rb.buffer.getD rb.tail default :: (rb.pop.1.popN n).1
        = (toList rb).take (n + 1)
      rw [h1, hcons, List.take_succ_cons]
    · show toList (rb.pop.1.popN n).2 = (toList rb).drop (n + 1)
      rw [h2, hcons, List.drop_succ_cons]
    · show (rb.pop.1.popN n).2.len = rb.len - (n + 1)
      rw [h3, hlen1]
      omega

theorem popN_drain (rb : RingBuffer α S) (h : Inv rb) :
    (rb.popN rb.len).1 = toList rb := by
  have h1 := (popN_spec rb.len rb h (Nat.le_refl _)).1
  have h2 : (toList rb).take rb.len = toList rb := by
    rw [← toList_length rb]
    exact List.take_length _
  rw [h1, h2]

theorem write_cons (rb : RingBuffer α S) (x : α) (xs : List α) :
    rb.write (x :: xs) =
      if rb.len = S then (rb, Except.error RingBufferError.Full)
      else (rb.push x).1.write xs := by
  by_cases hfull : rb.len = S
  · simp [write, push, hfull]
  · simp [write, push, hfull]

theorem write_ok (data : List α) : ∀ rb : RingBuffer α S, Inv rb →
    data.length ≤ S - rb.len →
    (rb.write data).2 = Except.ok () ∧
      toList (rb.write data).1 = toList rb ++ data ∧
      (rb.write data).1.len = rb.len + data.length ∧
      Inv (rb.write data).1 := by
  induction data with
  | nil =>
    intro rb h _
    exact ⟨rfl, by simp [write], by simp [write], by simpa [write] using h⟩
  | cons x xs ih =>
    intro rb h hcap
    simp only [List.length_cons] at hcap
    have hlen : rb.len < S := by omega
    have hfull : ¬ rb.len = S := Nat.ne_of_lt hlen
    rw [write_cons, if_neg hfull]
    obtain ⟨hok, htl⟩ := toList_push rb x h hlen
    obtain ⟨_, _, _, _, hlen1⟩ := push_state rb x hlen
    have hinv1 : Inv (rb.push x).1 := inv_push rb x h
    have hcap1 : xs.length ≤ S - (rb.push x).1.len := by
      rw [hlen1]; omega
    obtain ⟨h1, h2, h3, h4⟩ := ih (rb.push x).1 hinv1 hcap1
    refine ⟨h1, ?_, ?_, h4⟩
    · rw [h2, htl]
      simp
    · rw [h3, hlen1]
      simp only [List.length_cons]
      omega

theorem write_overflow (data : List α) : ∀ rb : RingBuffer α S, Inv rb →
    S - rb.len < data.length →
    (rb.write data).2 = Except.error RingBufferError.Full ∧
      toList (rb.write data).1 = toList rb ++ data.take (S - rb.len) ∧
      (rb.write data).1.len = S := by
  induction data with
  | nil =>
    intro rb _ hcap
    simp at hcap
  | cons x xs ih =>
    intro rb h hcap
    by_cases hfull : rb.len = S
    · rw [write_cons, if_pos hfull]
      refine ⟨rfl, ?_, hfull⟩
      rw [show S - rb.len = 0 by omega]
      simp
    · have hl : rb.len ≤ S := h.2.1
      have hlen : rb.len < S := by omega
      rw [write_cons, if_neg hfull]
      obtain ⟨hok, htl⟩ := toList_push rb x h hlen
      obtain ⟨_, _, _, _, hlen1⟩ := push_state rb x hlen
      have hinv1 : Inv (rb.push x).1 := inv_push rb x h
      have hcap1 : S - (rb.push x).1.len < xs.length := by
        simp only [List.length_cons] at hcap
        rw [hlen1]
        omega
      obtain ⟨h1, h2, h3⟩ := ih (rb.push x).1 hinv1 hcap1
      refine ⟨h1, ?_, h3⟩
      rw [h2, htl, hlen1]
      rw [show S - rb.len = (S - (rb.len + 1)) + 1 by omega]
      rw [List.take_succ_cons]
      simp

theorem read_cons (rb : RingBuffer α S) (o : α) (os : List α) :
    rb.read (o :: os) =
      if rb.len = 0 then (rb, o :: os, 0)
      else ((rb.pop.1.read os).1,
            rb.buffer.getD rb.tail default :: (rb.pop.1.read os).2.1,
            (rb.pop.1.read os).2.2 + 1) := by
  by_cases hempty : rb.len = 0 <;> simp [read, pop, hempty]

theorem read_spec (out : List α) : ∀ rb : RingBuffer α S, Inv rb →
    (rb.read out).2.2 = min out.length rb.len ∧
      (rb.read out).2.1 = (toList rb).take (min out.length rb.len) ++
        out.drop (min out.length rb.len) ∧
      (rb.read out).2.1.length = out.length ∧
      toList (rb.read out).1 = (toList rb).drop (min out.length rb.len) ∧
      Inv (rb.read out).1 := by
  induction out with
  | nil =>
    intro rb h
    exact ⟨by simp [read], by simp [read], by simp [read], by simp [read],
      by simpa [read] using h⟩
  | cons o os ih =>
    intro rb h
    by_cases hempty : rb.len = 0
    · rw [read_cons, if_pos hempty]
      refine ⟨?_, ?_, ?_, ?_, ?_⟩ <;> simp [hempty, h]
    · have hlen : 0 < rb.len := by omega
      rw [read_cons, if_neg hempty]
      obtain ⟨hpop2, hcons⟩ := toList_pop rb h hlen
      obtain ⟨_, _, _, _, hlen1⟩ := pop_state rb hlen
      have hinv1 : Inv rb.pop.1 := inv_pop rb h
      obtain ⟨h1, h2, h3, h4, h5⟩ := ih rb.pop.1 hinv1
      have hmin : min (o :: os).length rb.len
          = min os.length rb.pop.1.len + 1 := by
        simp only [List.length_cons, hlen1]
        omega
      refine ⟨?_, ?_, ?_, ?_, h5⟩
      · show (rb.pop.1.read os).2.2 + 1 = min (o :: os).length rb.len
        rw [h1, hmin]
      · show rb.buffer.getD rb.tail default :: (rb.pop.1.read os).2.1
          = (toList rb).take (min (o :: os).length rb.len) ++
            (o :: os).drop (min (o :: os).length rb.len)
        rw [h2, hmin, hcons, List.take_succ_cons, List.drop_succ_cons,
          List.cons_append]
      · show (rb.buffer.getD rb.tail default :: (rb.pop.1.read os).2.1).length
          = (o :: os).length
        simp [h3]
      · show toList (rb.pop.1.read os).1
          = (toList rb).drop (min (o :: os).length rb.len)
        rw [h4, hmin, hcons, List.drop_succ_cons]

/-! ### The contiguous view `read_slice` -/

theorem take_map_range {β : Type} (f : Nat → β) (m n : Nat) (h : n ≤ m) :
    ((List.range m).map f).take n = (List.range n).map f := by
  apply List.ext_getElem
  · simp
    omega
  · intro i h1 h2
    simp [List.getElem_take, List.getElem_map, List.getElem_range]

/-- When the requested window does not cross the physical end of the array,
the contiguous physical slice is exactly the first `n` live elements. -/
theorem slice_eq_toList_take (rb : RingBuffer α S) (n : Nat) (h : Inv rb)
    (hn : n ≤ rb.len) (hbound : rb.tail + n ≤ S) :
    (rb.buffer.drop rb.tail).take n = (toList rb).take n := by
  obtain ⟨hb, hl, hh, ht, he⟩ := h
  rw [drop_take_eq_map_range rb.buffer rb.tail n (by omega)]
  simp only [toList]
  rw [take_map_range _ rb.len n hn]
  apply List.map_congr_left
  intro i hi
  have hin : i < n := List.mem_range.mp hi
  rw [Nat.mod_eq_of_lt (by omega)]

/-! ### Panic-freedom of the Rust code

The Rust methods can panic only at array indexing (`self.buffer[i]` for
`i ≥ S`), at a remainder by zero (`% S` with `S = 0`), and at `usize`
subtraction underflow.  The predicates below record, for each method, that
every such site executed on the method's control path is in bounds.  `clear`,
`new`, `capacity`, `len`, `is_empty` and `is_full` have no such site. -/

/-- `push` executes `buffer[head] = item` and `(head + 1) % S` only when the
full-check fails. -/
def push_safe (rb : RingBuffer α S) : Prop :=
  rb.len ≠ S → rb.head < rb.buffer.length ∧ 0 < S

/-- `pop` executes `buffer[tail]`, `(tail + 1) % S` and `len - 1` only when
the empty-check fails. -/
def pop_safe (rb : RingBuffer α S) : Prop :=
  rb.len ≠ 0 → rb.tail < rb.buffer.length ∧ 0 < S

/-- `pop_continuous` executes `(tail + count) % S`, `len - count` and
`S - len` whenever `count ≤ len`; the remainder needs `S ≠ 0` and
`remaining_capacity` needs the updated `len` to be at most `S`. -/
def pop_continuous_safe (rb : RingBuffer α S) (count : Nat) : Prop :=
  count ≤ rb.len → 0 < S ∧ rb.len - count ≤ S

/-- `read_slice` slices `buffer[tail..tail+n]` in both `Ok` branches. -/
def read_slice_safe (rb : RingBuffer α S) (n : Nat) : Prop :=
  n ≤ rb.len → (rb.tail < rb.head ∨ rb.tail + n ≤ S) →
    rb.tail + n ≤ rb.buffer.length

/-- `remaining_capacity` computes the `usize` difference `S - len`. -/
def remaining_capacity_safe (rb : RingBuffer α S) : Prop := rb.len ≤ S

/-- `write` calls `push` on the state left by the pushes of every proper
prefix of the data. -/
def write_safe (rb : RingBuffer α S) (data : List α) : Prop :=
  ∀ i, i < data.length → push_safe (rb.write (data.take i)).1

/-- `read` into an `L`-slot buffer calls `pop` after up to `L - 1` previous
pops (the write `buffer[i] = item` is always in bounds since `i < L`). -/
def read_safe (rb : RingBuffer α S) (L : Nat) : Prop :=
  ∀ i, i < L → pop_safe (rb.popN i).2

theorem inv_push_safe (rb : RingBuffer α S) (h : Inv rb) : push_safe rb := by
  obtain ⟨hb, hl, hh, ht, he⟩ := h
  intro _
  exact ⟨by omega, by omega⟩

theorem inv_pop_safe (rb : RingBuffer α S) (h : Inv rb) : pop_safe rb := by
  obtain ⟨hb, hl, hh, ht, he⟩ := h
  intro _
  exact ⟨by omega, by omega⟩

theorem inv_pop_continuous_safe (rb : RingBuffer α S) (count : Nat)
    (h : Inv rb) : pop_continuous_safe rb count := by
  obtain ⟨hb, hl, hh, ht, he⟩ := h
  intro _
  exact ⟨by omega, by omega⟩

theorem inv_read_slice_safe (rb : RingBuffer α S) (n : Nat) (h : Inv rb) :
    read_slice_safe rb n := by
  intro hn hcase
  obtain ⟨hb, hl, hh, ht, he⟩ := h
  rcases hcase with hth | hbound
  · have := live_no_wrap rb ⟨hb, hl, hh, ht, he⟩ hth
    omega
  · omega

theorem inv_remaining_capacity_safe (rb : RingBuffer α S) (h : Inv rb) :
    remaining_capacity_safe rb := h.2.1

theorem inv_write_safe (rb : RingBuffer α S) (data : List α) (h : Inv rb) :
    write_safe rb data := by
  intro i _
  exact inv_push_safe _ (inv_write rb (data.take i) h)

theorem inv_read_safe (rb : RingBuffer α S) (L : Nat) (h : Inv rb) :
    read_safe rb L := by
  intro i _
  exact inv_pop_safe _ (inv_popN rb i h)

/-! ### The degenerate capacity `S = 0` -/

theorem write_zero (data : List α) :
    ((new : RingBuffer α 0).write data).1 = new := by
  cases data with
  | nil => rfl
  | cons x xs =>
    rw [write_cons, if_pos (by simp [new])]

theorem popN_empty (rb : RingBuffer α S) (n : Nat) (h : rb.len = 0) :
    rb.popN n = ([], rb) := by
  cases n with
  | zero => rfl
  | succ n => simp [popN, pop_empty rb h]

theorem run_zero (ops : List (Op α)) : (new : RingBuffer α 0).run ops = new := by
  induction ops with
  | nil => rfl
  | cons op ops ih =>
    have h : (new : RingBuffer α 0).apply op = new := by
      cases op with
      | push item => simp [apply, push, new]
      | pop => simp [apply, pop, new]
      | write data =>
        show ((new : RingBuffer α 0).write data).1 = new
        exact write_zero data
      | read out =>
        cases out with
        | nil => rfl
        | cons o os =>
          show ((new : RingBuffer α 0).read (o :: os)).1 = new
          rw [read_cons, if_pos (by simp [new])]
      | clear => rfl
      | pop_continuous count =>
        cases count with
        | zero => rfl
        | succ c =>
          show ((new : RingBuffer α 0).pop_continuous (c + 1)).1 = new
          rw [pop_continuous_beyond _ _ (by simp [new])]
      | read_slice n => rfl
    show ((new : RingBuffer α 0).apply op).run ops = new
    rw [h, ih]

theorem reachable_zero (rb : RingBuffer α 0) (h : Reachable rb) : rb = new := by
  obtain ⟨ops, hops⟩ := h
  rw [← hops, run_zero]

end RingBuffer

open RingBuffer

/-! ### The claims -/

/-- C1, counterexample: the claim quantifies over every capacity, but at the
degenerate capacity `S = 0` the state `new()` itself is reachable (by the
empty call sequence) while its `head = 0` does not lie in the empty interval
`[0, 0)`. -/
theorem c1_counterexample :
    Reachable (new : RingBuffer Nat 0) ∧ ¬ (new : RingBuffer Nat 0).head < 0 :=
  ⟨⟨[], rfl⟩, by decide⟩

/-- C1 (amended to capacities `S ≥ 1`): every state reachable from `new()` by
any finite sequence of `push`, `pop`, `write`, `read`, `clear`,
`pop_continuous` and `read_slice` calls satisfies `0 ≤ len ≤ S` (the lower
bound is inherent to `Nat`), has `head` and `tail` in `[0, S)`, and satisfies
`head = (tail + len) % S`, i.e. the live region is the `len` elements starting
at `tail` and ending circularly right before `head`. -/
theorem c1_state_invariant {α : Type} [Inhabited α] {S : Nat} (hS : 0 < S)
    (rb : RingBuffer α S) (h : Reachable rb) :
    rb.len ≤ S ∧ rb.head < S ∧ rb.tail < S ∧
      rb.head = (rb.tail + rb.len) % S := by
  obtain ⟨hb, hl, hh, ht, he⟩ := inv_reachable hS rb h
  exact ⟨hl, hh, ht, he⟩

theorem c1_witness :
    0 < 2 ∧
      Reachable ((new : RingBuffer Nat 2).run [Op.push 1, Op.push 2, Op.pop]) ∧
      (((new : RingBuffer Nat 2).run [Op.push 1, Op.push 2, Op.pop]).len ≤ 2 ∧
        ((new : RingBuffer Nat 2).run [Op.push 1, Op.push 2, Op.pop]).head < 2 ∧
        ((new : RingBuffer Nat 2).run [Op.push 1, Op.push 2, Op.pop]).tail < 2 ∧
        ((new : RingBuffer Nat 2).run [Op.push 1, Op.push 2, Op.pop]).head =
          (((new : RingBuffer Nat 2).run [Op.push 1, Op.push 2, Op.pop]).tail +
            ((new : RingBuffer Nat 2).run [Op.push 1, Op.push 2, Op.pop]).len) % 2) :=
  ⟨by decide, ⟨[Op.push 1, Op.push 2, Op.pop], rfl⟩,
    c1_state_invariant (by decide) _ ⟨[Op.push 1, Op.push 2, Op.pop], rfl⟩⟩

/-- C2: pushing `x1..xn` via successive successful pushes (no pops in
between), then popping everything, yields the elements that were live before
the pushes followed by `x1..xn`; in particular the pops after the first
`rb.len` ones return exactly `x1..xn` in order. -/
theorem c2_fifo {α : Type} [Inhabited α] {S : Nat} (rb : RingBuffer α S)
    (xs : List α) (h : Inv rb) (hok : (rb.write xs).2 = Except.ok ()) :
    ((rb.write xs).1.popN (rb.write xs).1.len).1 = toList rb ++ xs ∧
      (((rb.write xs).1.popN (rb.write xs).1.len).1).drop rb.len = xs := by
  have hcap : xs.length ≤ S - rb.len := by
    by_contra hc
    have herr := (write_overflow xs rb h (by omega)).1
    rw [herr] at hok
    exact Except.noConfusion hok
  obtain ⟨h1, h2, h3, h4⟩ := write_ok xs rb h hcap
  have hdrain := popN_drain (rb.write xs).1 h4
  refine ⟨?_, ?_⟩
  · rw [hdrain, h2]
  · rw [hdrain, h2, show rb.len = (toList rb).length from (toList_length rb).symm]
    exact List.drop_left _ _

theorem c2_witness :
    Inv (new : RingBuffer Nat 2) ∧
      ((new : RingBuffer Nat 2).write [5, 7]).2 = Except.ok () ∧
      (((new : RingBuffer Nat 2).write [5, 7]).1.popN
          ((new : RingBuffer Nat 2).write [5, 7]).1.len).1 =
        toList (new : RingBuffer Nat 2) ++ [5, 7] :=
  ⟨by decide, by decide,
    (c2_fifo (new : RingBuffer Nat 2) [5, 7] (by decide) (by decide)).1⟩

/-- C3: with `len = S`, `push` returns `Full` and leaves the whole state
unchanged; with `len < S`, it succeeds, stores the item at index `head`,
advances `head` modulo `S`, keeps `tail` and the rest of storage, and
increments `len`. -/
theorem c3_push_contract {α : Type} [Inhabited α] {S : Nat}
    (rb : RingBuffer α S) (x : α) :
    (rb.len = S → rb.push x = (rb, Except.error RingBufferError.Full)) ∧
    (rb.len < S →
      (rb.push x).2 = Except.ok () ∧
      (rb.push x).1.buffer = rb.buffer.set rb.head x ∧
      (rb.push x).1.head = (rb.head + 1) % S ∧
      (rb.push x).1.tail = rb.tail ∧
      (rb.push x).1.len = rb.len + 1) :=
  ⟨push_full rb x, push_state rb x⟩

theorem c3_witness :
    ((new : RingBuffer Nat 1).len < 1 ∧
      ((new : RingBuffer Nat 1).push 7).2 = Except.ok ()) ∧
    (((new : RingBuffer Nat 1).push 7).1.len = 1 ∧
      ((new : RingBuffer Nat 1).push 7).1.push 9 =
        (((new : RingBuffer Nat 1).push 7).1,
          Except.error RingBufferError.Full)) :=
  ⟨⟨by decide, ((c3_push_contract (new : RingBuffer Nat 1) 7).2 (by decide)).1⟩,
    ⟨by decide,
      (c3_push_contract ((new : RingBuffer Nat 1).push 7).1 9).1 (by decide)⟩⟩

/-- C4: with `len = 0`, `pop` returns `none` (not an error) and leaves the
whole state unchanged; with `len > 0`, it returns the value stored at index
`tail` — which is the oldest live element, the head of the abstract FIFO
content — advances `tail` modulo `S`, decrements `len`, and keeps `head` and
the storage. -/
theorem c4_pop_contract {α : Type} [Inhabited α] {S : Nat}
    (rb : RingBuffer α S) :
    (rb.len = 0 → rb.pop = (rb, none)) ∧
    (0 < rb.len →
      rb.pop.2 = some (rb.buffer.getD rb.tail default) ∧
      rb.pop.1.buffer = rb.buffer ∧
      rb.pop.1.head = rb.head ∧
      rb.pop.1.tail = (rb.tail + 1) % S ∧
      rb.pop.1.len = rb.len - 1) ∧
    (Inv rb → 0 < rb.len → rb.pop.2 = (toList rb).head?) := by
  refine ⟨pop_empty rb, pop_state rb, ?_⟩
  intro h hlen
  obtain ⟨hp, hcons⟩ := toList_pop rb h hlen
  rw [hp, hcons, List.head?_cons]

theorem c4_witness :
    ((new : RingBuffer Nat 1).pop = ((new : RingBuffer Nat 1), none)) ∧
    (0 < ((new : RingBuffer Nat 1).push 3).1.len ∧
      (((new : RingBuffer Nat 1).push 3).1.pop).2 =
        some ((((new : RingBuffer Nat 1).push 3).1.buffer).getD
          (((new : RingBuffer Nat 1).push 3).1.tail) default)) :=
  ⟨(c4_pop_contract (new : RingBuffer Nat 1)).1 (by decide),
    ⟨by decide,
      ((c4_pop_contract ((new : RingBuffer Nat 1).push 3).1).2.1 (by decide)).1⟩⟩

/-- C5: with `count > len`, `pop_continuous` returns `BeyondRange` and leaves
the whole state unchanged; with `count ≤ len`, it advances `tail` by `count`
modulo `S`, decrements `len` by `count`, keeps `head` and the storage, and
returns `S - len` computed on the updated state. -/
theorem c5_pop_continuous_contract {α : Type} [Inhabited α] {S : Nat}
    (rb : RingBuffer α S) (count : Nat) :
    (count > rb.len →
      rb.pop_continuous count =
        (rb, Except.error RingBufferError.BeyondRange)) ∧
    (count ≤ rb.len →
      (rb.pop_continuous count).1.buffer = rb.buffer ∧
      (rb.pop_continuous count).1.head = rb.head ∧
      (rb.pop_continuous count).1.tail = (rb.tail + count) % S ∧
      (rb.pop_continuous count).1.len = rb.len - count ∧
      (rb.pop_continuous count).2 =
        Except.ok (S - (rb.pop_continuous count).1.len)) := by
  refine ⟨pop_continuous_beyond rb count, ?_⟩
  intro h
  obtain ⟨h1, h2, h3, h4, h5⟩ := pop_continuous_state rb count h
  refine ⟨h1, h2, h3, h4, ?_⟩
  rw [h4]
  exact h5

theorem c5_witness :
    1 ≤ (((new : RingBuffer Nat 2).write [4, 5]).1).len ∧
      ((((new : RingBuffer Nat 2).write [4, 5]).1).pop_continuous 1).1.len =
        (((new : RingBuffer Nat 2).write [4, 5]).1).len - 1 ∧
      ((((new : RingBuffer Nat 2).write [4, 5]).1).pop_continuous 1).2 =
        Except.ok (2 -
          ((((new : RingBuffer Nat 2).write [4, 5]).1).pop_continuous 1).1.len) :=
  ⟨by decide,
    ((c5_pop_continuous_contract ((new : RingBuffer Nat 2).write [4, 5]).1 1).2
      (by decide)).2.2.2.1,
    ((c5_pop_continuous_contract ((new : RingBuffer Nat 2).write [4, 5]).1 1).2
      (by decide)).2.2.2.2⟩

/-- C6: `read_slice` (which takes `&self` in Rust and is embedded as a pure
function of the state, so it mutates neither cursors, count nor storage)
returns `BeyondRange` when more than `len` elements are requested; otherwise,
on an invariant state, it returns `BufferIncomplete` exactly when the window
of `n` slots starting at `tail` crosses the physical end of the array
(`tail + n > S`), and otherwise succeeds with the contiguous storage elements
at indices `tail..tail+n`, which are the first `n` live elements in FIFO
order. -/
theorem c6_read_slice_contract {α : Type} [Inhabited α] {S : Nat}
    (rb : RingBuffer α S) (n : Nat) (h : Inv rb) :
    (n > rb.len → rb.read_slice n = Except.error RingBufferError.BeyondRange) ∧
    (n ≤ rb.len → S < rb.tail + n →
      rb.read_slice n = Except.error RingBufferError.BufferIncomplete) ∧
    (n ≤ rb.len → rb.tail + n ≤ S →
      rb.read_slice n = Except.ok ((rb.buffer.drop rb.tail).take n) ∧
      (rb.buffer.drop rb.tail).take n = (toList rb).take n) := by
  refine ⟨?_, ?_, ?_⟩
  · intro hgt
    simp [read_slice, hgt]
  · intro hn hlt
    have h1 : ¬ n > rb.len := by omega
    have hnw : ¬ rb.tail < rb.head := by
      intro hth
      have := live_no_wrap rb h hth
      omega
    have h3 : ¬ (rb.tail + n ≤ S) := by omega
    simp [read_slice, h1, hnw, h3]
  · intro hn hle
    have h1 : ¬ n > rb.len := by omega
    refine ⟨?_, slice_eq_toList_take rb n h hn hle⟩
    by_cases hth : rb.tail < rb.head
    · simp [read_slice, h1, hth]
    · simp [read_slice, h1, hth, hle]

theorem c6_witness :
    Inv ((new : RingBuffer Nat 2).write [4, 5]).1 ∧
      1 ≤ ((new : RingBuffer Nat 2).write [4, 5]).1.len ∧
      ((new : RingBuffer Nat 2).write [4, 5]).1.tail + 1 ≤ 2 ∧
      ((new : RingBuffer Nat 2).write [4, 5]).1.read_slice 1 =
        Except.ok ((((new : RingBuffer Nat 2).write [4, 5]).1.buffer.drop
          ((new : RingBuffer Nat 2).write [4, 5]).1.tail).take 1) :=
  ⟨by decide, by decide, by decide,
    ((c6_read_slice_contract ((new : RingBuffer Nat 2).write [4, 5]).1 1
      (by decide)).2.2 (by decide) (by decide)).1⟩

/-- C7: `write` succeeds exactly when the data fits into the remaining
capacity `S - len`; when it fails with `Full`, the first `S - len` elements
of the data — the prefix pushed before the first failing push — remain
committed after the old content, and no later element is written. -/
theorem c7_write_contract {α : Type} [Inhabited α] {S : Nat}
    (rb : RingBuffer α S) (data : List α) (h : Inv rb) :
    ((rb.write data).2 = Except.ok () ↔ data.length ≤ S - rb.len) ∧
    (S - rb.len < data.length →
      (rb.write data).2 = Except.error RingBufferError.Full ∧
      toList (rb.write data).1 = toList rb ++ data.take (S - rb.len)) := by
  constructor
  · constructor
    · intro hok
      by_contra hc
      have herr := (write_overflow data rb h (by omega)).1
      rw [herr] at hok
      exact Except.noConfusion hok
    · intro hle
      exact (write_ok data rb h hle).1
  · intro hgt
    exact ⟨(write_overflow data rb h hgt).1,
      (write_overflow data rb h hgt).2.1⟩

theorem c7_witness :
    Inv (new : RingBuffer Nat 1) ∧
      1 - (new : RingBuffer Nat 1).len < ([1, 2] : List Nat).length ∧
      ((new : RingBuffer Nat 1).write [1, 2]).2 =
        Except.error RingBufferError.Full ∧
      toList ((new : RingBuffer Nat 1).write [1, 2]).1 =
        toList (new : RingBuffer Nat 1) ++
          ([1, 2] : List Nat).take (1 - (new : RingBuffer Nat 1).len) :=
  ⟨by decide, by decide,
    ((c7_write_contract (new : RingBuffer Nat 1) [1, 2] (by decide)).2
      (by decide)).1,
    ((c7_write_contract (new : RingBuffer Nat 1) [1, 2] (by decide)).2
      (by decide)).2⟩

/-- C8: `read` into an output buffer of length `L` never errors, returns
`k = min L len`, fills the first `k` output slots with the `k` oldest live
elements in FIFO order, removes exactly those `k` elements, and leaves the
output slots `k..L` with their caller-provided content (the output keeps its
length). -/
theorem c8_read_contract {α : Type} [Inhabited α] {S : Nat}
    (rb : RingBuffer α S) (out : List α) (h : Inv rb) :
    (rb.read out).2.2 = min out.length rb.len ∧
      (rb.read out).2.1 = (toList rb).take (min out.length rb.len) ++
        out.drop (min out.length rb.len) ∧
      (rb.read out).2.1.length = out.length ∧
      toList (rb.read out).1 = (toList rb).drop (min out.length rb.len) := by
  obtain ⟨h1, h2, h3, h4, _⟩ := read_spec out rb h
  exact ⟨h1, h2, h3, h4⟩

theorem c8_witness :
    Inv ((new : RingBuffer Nat 2).push 9).1 ∧
      (((new : RingBuffer Nat 2).push 9).1.read [0, 0, 0]).2.2 =
        min ([0, 0, 0] : List Nat).length ((new : RingBuffer Nat 2).push 9).1.len :=
  ⟨by decide,
    (c8_read_contract ((new : RingBuffer Nat 2).push 9).1 [0, 0, 0]
      (by decide)).1⟩

/-- C9: starting empty, pushing `S` elements, popping `k < S` of them, then
pushing `k` more (all succeeding) leaves the buffer holding exactly the last
`S` of the `S + k` pushed elements, and popping everything yields them in
FIFO order — exercising the modulo wraparound of both cursors across the
physical array boundary. -/
theorem c9_wraparound {α : Type} [Inhabited α] {S k : Nat} (xs ys : List α)
    (hk : 0 < k) (hkS : k < S) (hxs : xs.length = S) (hys : ys.length = k) :
    ((new : RingBuffer α S).write xs).2 = Except.ok () ∧
      (((new : RingBuffer α S).write xs).1.popN k).1 = xs.take k ∧
      ((((new : RingBuffer α S).write xs).1.popN k).2.write ys).2 =
        Except.ok () ∧
      toList ((((new : RingBuffer α S).write xs).1.popN k).2.write ys).1 =
        (xs ++ ys).drop k ∧
      (((((new : RingBuffer α S).write xs).1.popN k).2.write ys).1.popN S).1 =
        (xs ++ ys).drop k := by
  have hS : 0 < S := by omega
  have hinv0 : Inv (new : RingBuffer α S) := inv_new hS
  have hcap : xs.length ≤ S - (new : RingBuffer α S).len := by
    simp [new, hxs]
  obtain ⟨w1, w2, w3, w4⟩ := write_ok xs (new : RingBuffer α S) hinv0 hcap
  rw [toList_new, List.nil_append] at w2
  have hlen1 : ((new : RingBuffer α S).write xs).1.len = S := by
    rw [w3, hxs]
    simp [new]
  have hk1 : k ≤ ((new : RingBuffer α S).write xs).1.len := by
    rw [hlen1]
    omega
  obtain ⟨p1, p2, p3, p4⟩ := popN_spec k _ w4 hk1
  rw [w2] at p1 p2
  have hlen2 : (((new : RingBuffer α S).write xs).1.popN k).2.len = S - k := by
    rw [p3, hlen1]
  have hcap2 : ys.length ≤
      S - (((new : RingBuffer α S).write xs).1.popN k).2.len := by
    rw [hlen2, hys]
    omega
  obtain ⟨q1, q2, q3, q4⟩ := write_ok ys _ p4 hcap2
  rw [p2] at q2
  have hfinal :
      toList ((((new : RingBuffer α S).write xs).1.popN k).2.write ys).1 =
        (xs ++ ys).drop k := by
    rw [q2, List.drop_append_of_le_length (by omega)]
  have hlen3 :
      ((((new : RingBuffer α S).write xs).1.popN k).2.write ys).1.len = S := by
    rw [q3, hlen2, hys]
    omega
  have hdrain := popN_drain _ q4
  rw [hlen3, hfinal] at hdrain
  exact ⟨w1, p1, q1, hfinal, hdrain⟩

theorem c9_witness :
    0 < 1 ∧ 1 < 2 ∧ ([3, 4] : List Nat).length = 2 ∧
      ([5] : List Nat).length = 1 ∧
      ((new : RingBuffer Nat 2).write [3, 4]).2 = Except.ok () ∧
      toList ((((new : RingBuffer Nat 2).write [3, 4]).1.popN 1).2.write [5]).1 =
        (([3, 4] : List Nat) ++ [5]).drop 1 :=
  ⟨by decide, by decide, rfl, rfl,
    (c9_wraparound [3, 4] [5] (by decide) (by decide) rfl rfl).1,
    (c9_wraparound [3, 4] [5] (by decide) (by decide) rfl rfl).2.2.2.1⟩

/-- C10: on every invariant state (which forces `S ≥ 1`), every public
operation is panic-free — each array index is within the backing list and
each `% S` and `usize` subtraction is well-defined.  At the degenerate
capacity `S = 0`, `pop_continuous 0` passes the `count ≤ len` guard and then
evaluates `(tail + 0) % 0`, a remainder by zero, so its panic-freedom
predicate fails even on the (only reachable) state `new`; `push`, `pop`,
`read_slice`, `remaining_capacity`, `write` and `read` stay panic-free on
every reachable state (and `clear`, `new` and the queries have no panic site
at all). -/
theorem c10_totality :
    (∀ {α : Type} [Inhabited α] {S : Nat} (rb : RingBuffer α S), Inv rb →
      push_safe rb ∧ pop_safe rb ∧ (∀ count, pop_continuous_safe rb count) ∧
      (∀ n, read_slice_safe rb n) ∧ remaining_capacity_safe rb ∧
      (∀ data, write_safe rb data) ∧ (∀ L, read_safe rb L)) ∧
    ¬ pop_continuous_safe (new : RingBuffer Nat 0) 0 ∧
    (∀ rb : RingBuffer Nat 0, Reachable rb →
      push_safe rb ∧ pop_safe rb ∧ (∀ n, read_slice_safe rb n) ∧
      remaining_capacity_safe rb ∧ (∀ data, write_safe rb data) ∧
      (∀ L, read_safe rb L)) := by
  refine ⟨?_, ?_, ?_⟩
  · intro α _ S rb h
    exact ⟨inv_push_safe rb h, inv_pop_safe rb h,
      fun count => inv_pop_continuous_safe rb count h,
      fun n => inv_read_slice_safe rb n h,
      inv_remaining_capacity_safe rb h,
      fun data => inv_write_safe rb data h,
      fun L => inv_read_safe rb L h⟩
  · intro hsafe
    have h0 : (0 : Nat) < 0 := (hsafe (Nat.le_refl 0)).1
    exact absurd h0 (Nat.lt_irrefl 0)
  · intro rb hreach
    rw [reachable_zero rb hreach]
    refine ⟨?_, ?_, ?_, ?_, ?_, ?_⟩
    · intro hne
      exact absurd rfl hne
    · intro hne
      exact absurd rfl hne
    · intro n hn _
      have : n = 0 := by
        simpa [new] using hn
      simp [new, this]
    · show (new : RingBuffer Nat 0).len ≤ 0
      simp [new]
    · intro data i _
      have hst : ((new : RingBuffer Nat 0).write (data.take i)).1 = new :=
        write_zero (data.take i)
      rw [hst]
      intro hne
      exact absurd rfl hne
    · intro L i _
      have hst : ((new : RingBuffer Nat 0).popN i).2 = new := by
        rw [popN_empty _ i rfl]
      rw [hst]
      intro hne
      exact absurd rfl hne

theorem c10_witness :
    Inv ((new : RingBuffer Nat 2).push 8).1 ∧
      push_safe ((new : RingBuffer Nat 2).push 8).1 ∧
      ¬ pop_continuous_safe (new : RingBuffer Nat 0) 0 ∧
      Reachable (new : RingBuffer Nat 0) ∧
      pop_safe (new : RingBuffer Nat 0) :=
  ⟨by decide,
    (c10_totality.1 ((new : RingBuffer Nat 2).push 8).1 (by decide)).1,
    c10_totality.2.1,
    ⟨[], rfl⟩,
    (c10_totality.2.2 (new : RingBuffer Nat 0) ⟨[], rfl⟩).2.1⟩
